import Mathlib

/-!
# Verification of the `c_hashtable` repository

A shallow embedding, in Lean 4, of the separate-chaining hash table implemented
in `src/src/hashtable.c` (with `src/include/hashtable.h` and
`src/include/errorcode.h`), together with theorems settling the specification
claims about it.

Modelling conventions:
* Bytes are `Fin 256` (the C code reads keys through `uint8_t *`).  A key is the
  byte content of a NUL-terminated C string, i.e. a list of bytes (the bytes of
  a C string are the ones before the terminator; the terminator itself is not
  part of the list).
* 32-bit unsigned arithmetic is `Nat` arithmetic reduced `% 2^32`; the
  `size_t`-typed `size` field uses `Nat` arithmetic reduced `% 2^64`.
* Opaque `void *` values are modelled as `Nat` (an address is just a number).
* The singly linked chain (`node_t.p_next`) is modelled as a `List` of nodes,
  head first; the bucket array `pp_items` as a `List` of chains.
* Heap allocation is assumed to succeed (`malloc`/`calloc` failure paths are
  not modelled).  `Option` is used where the C program would hit undefined
  behaviour: reading `g_primes` out of bounds in `ht_create`, or dereferencing
  a null pointer.  The recursion in `ht_insert` (resize re-inserts through
  `ht_insert` itself) is modelled with an explicit fuel parameter; running out
  of fuel yields `none`.
-/

set_option autoImplicit false
set_option maxRecDepth 1000000

namespace CHashtable

/-- The `error_t` enumeration of `errorcode.h`. -/
inductive error_t where
  | E_SUCCESS
  | E_GENERAL
  | E_NULL_PTR
  | E_HASHTABLE_NOT_FOUND
  | E_HASHTABLE_CREATE
  | E_HASHTABLE_INSERT
  | E_HASHTABLE_DELETE
  | E_HASHTABLE_DESTROY
  | E_NODE_NOT_FOUND
  deriving DecidableEq, Repr

/-- A byte, as read through `uint8_t *`. -/
abbrev Byte := Fin 256

/-- The byte content of a NUL-terminated C string (terminator excluded). -/
abbrev Key := List Byte

/-- Opaque `void *` values are modelled as naturals (addresses). -/
abbrev Val := Nat

/-- Embedding of `node_t` of `hashtable.h`: one key/value pair.  The `p_next` pointer is
modelled by the position of the node in a `List node_t` chain. -/
structure node_t where
  p_key : Key
  p_value : Val
  deriving DecidableEq, Repr

/-- Embedding of `ht_t` of `hashtable.h`.  `pp_items` is the bucket array (each bucket a
chain, head first), `capacity` and `size` are the `size_t` fields,
`prime_index` the `uint32_t` rank into `g_primes`. -/
structure ht_t where
  pp_items : List (List node_t)
  capacity : Nat
  size : Nat
  prime_index : Nat
  deriving DecidableEq, Repr

instance : Inhabited ht_t := ⟨⟨[], 0, 0, 0⟩⟩

/-- The global prime capacity array `g_primes` of `hashtable.c`. -/
def g_primes : List Nat :=
  [53, 97, 193, 389, 769, 1543,
   3079, 6151, 12289, 24593, 49157, 98317,
   196613, 393241, 786433, 1572869, 3145739, 6291469,
   12582917, 25165843, 50331653, 100663319, 201326611, 402653189,
   805306457, 1610612741]

/-- The modulus `2^32` of `uint32_t` arithmetic. -/
def M32 : Nat := 4294967296

/-- The modulus `2^64` of `size_t` arithmetic. -/
def M64 : Nat := 18446744073709551616

/-- Multiplication in `uint32_t`. -/
def mul32 (a b : Nat) : Nat := a * b % M32

/-- Rotate left by `s` in `uint32_t` (for `0 < s < 32`), as the C idiom
`(x << s) | (x >> (32 - s))`. -/
def rotl32 (x s : Nat) : Nat := ((x <<< s) % M32) ||| (x >>> (32 - s))

/-- One 4-byte chunk of the key, read through `const uint32_t *`
(little-endian, as on the platforms this C code targets). -/
def leWord (b0 b1 b2 b3 : Byte) : Nat :=
  b0.val ||| (b1.val <<< 8) ||| (b2.val <<< 16) ||| (b3.val <<< 24)

/-- The body loop of `murmurhash`: it runs exactly `chunk_len = len / 4`
iterations (`for (index = -chunk_len; index != 0; ++index)`), consuming the
4-byte chunks first to last and mixing each into the hash.  The second match
arm is never reached when the iteration count is `length / 4`. -/
def murmurLoop : Nat → Nat → List Byte → Nat × List Byte
  | 0, hash, tail => (hash, tail)
  | n + 1, hash, bytes =>
    match bytes with
    | b0 :: b1 :: b2 :: b3 :: rest =>
        let k := leWord b0 b1 b2 b3
        let k := mul32 k 0xcc9e2d51
        let k := rotl32 k 15
        let k := mul32 k 0x1b873593
        let hash := hash ^^^ k
        let hash := rotl32 hash 13
        let hash := (hash * 5 + 0xe6546b64) % M32
        murmurLoop n hash rest
    | tail => (hash, tail)

/-- The chunk phase of `murmurhash`: mix the `len / 4` leading chunks, return
the mixed hash together with the 0–3 remaining tail bytes. -/
def murmurBody (hash : Nat) (key : List Byte) : Nat × List Byte :=
  murmurLoop (key.length / 4) hash key

/-- The `switch (length & 3)` fall-through of `murmurhash`: accumulate the
tail bytes (`tail[2] << 16`, `tail[1] << 8`, `tail[0]`) into one partial
word. -/
def tailWord : List Byte → Nat
  | [b0] => b0.val
  | [b0, b1] => (b1.val <<< 8) ^^^ b0.val
  | [b0, b1, b2] => ((b2.val <<< 16) ^^^ (b1.val <<< 8)) ^^^ b0.val
  | _ => 0

/-- The function `murmurhash` of `hashtable.c` (MurmurHash3, 32-bit), on the byte list
`key` with the C `len` argument equal to `key.length`. -/
def murmurhash (key : List Byte) (seed : Nat) : Nat :=
  let (hash, tail) := murmurBody (seed % M32) key
  let hash :=
    if tail.isEmpty then hash
    else
      let k := tailWord tail
      let k := mul32 k 0xcc9e2d51
      let k := rotl32 k 15
      let k := mul32 k 0x1b873593
      hash ^^^ k
  let hash := hash ^^^ key.length
  let hash := hash ^^^ (hash >>> 16)
  let hash := mul32 hash 0x85ebca6b
  let hash := hash ^^^ (hash >>> 13)
  let hash := mul32 hash 0xc2b2ae35
  hash ^^^ (hash >>> 16)

/-- The function `hash_str` of `hashtable.c`: hash the key's `strlen` bytes with seed 0. -/
def hash_str (p_key : Key) : Nat := murmurhash p_key 0

/-! ## Table operations -/

/-- The function `ht_create` of `hashtable.c`.  Allocation is assumed to succeed; `none`
models the undefined behaviour of reading `g_primes[prime_index]` out of
bounds. -/
def ht_create (prime_index : Nat) : Option ht_t :=
  if h : prime_index < g_primes.length then
    let cap := g_primes.get ⟨prime_index, h⟩
    some { pp_items := List.replicate cap [], capacity := cap, size := 0,
           prime_index := prime_index }
  else none

/-- The bucket index `hash_str(p_key) % capacity` computed by insert, delete
and search. -/
def bucketIdx (t : ht_t) (p_key : Key) : Nat := hash_str p_key % t.capacity

/-- Read bucket `i` of the table (out-of-range reads never happen on
well-formed tables; they default to the empty chain). -/
def getBucket (t : ht_t) (i : Nat) : List node_t := t.pp_items.getD i []

/-- The non-resizing part of `ht_insert` (lines 123–143): create the node,
prepend it to its bucket's chain (`p_new_node->p_next = items[index]`,
`items[index] = p_new_node`), incrementing `size` exactly when the bucket was
empty.  `size` is `size_t`, so the increment is modulo `2^64`. -/
def ht_insert_core (t : ht_t) (p_key : Key) (p_value : Val) : ht_t :=
  let index := bucketIdx t p_key
  let chain := getBucket t index
  { t with
    pp_items := t.pp_items.set index (⟨p_key, p_value⟩ :: chain),
    size := if chain.isEmpty then (t.size + 1) % M64 else t.size }

/-- The resize trigger `(float)size / capacity > 0.8` of line 148, read as the
exact rational comparison `size / capacity > 8 / 10`.  (For every size and
prime capacity reachable here the `float` division and the `double` literal
`0.8` decide exactly as the rational comparison does: the ratio is never
within the rounding error of 0.8.) -/
def loadFactorExceeds (t : ht_t) : Bool := 10 * t.size > 8 * t.capacity

/-- All entries of the table, bucket by bucket, each chain head first — the
order in which the resize loop of `ht_insert` (lines 152–170) re-inserts
them. -/
def entriesOf (t : ht_t) : List node_t := t.pp_items.flatten

/-- The function `ht_insert` of `hashtable.c`, acting on a non-null table and key.  `fuel`
bounds the recursion depth through the resize path (the C function recurses
via `ht_insert(&p_new_ht, ...)`); `none` models a run that would exhaust
`g_primes` (undefined behaviour) or not terminate within `fuel`. -/
def ht_insert_fuel : Nat → ht_t → Key → Val → Option ht_t
  | 0, _, _, _ => none
  | fuel + 1, t, p_key, p_value =>
    let t1 := ht_insert_core t p_key p_value
    if loadFactorExceeds t1 then
      (ht_create (t1.prime_index + 1)).bind (fun fresh =>
        t1.pp_items.foldlM
          (fun acc chain =>
            chain.foldlM
              (fun acc' nd => ht_insert_fuel fuel acc' nd.p_key nd.p_value)
              acc)
          fresh)
    else some t1

/-- The chain walk of `ht_delete` (lines 217–231): remove the first node whose
key the deletion key prefix-matches.  `strncmp(p_key, nd->p_key,
strlen(p_key)) == 0` holds exactly when `p_key` is a prefix of `nd->p_key`
(a stored key shorter than `p_key` mismatches at its NUL terminator).
`none` means the chain was exhausted. -/
def chainDelete (p_key : Key) : List node_t → Option (List node_t)
  | [] => none
  | nd :: rest =>
      if p_key.isPrefixOf nd.p_key then some rest
      else match chainDelete p_key rest with
           | none => none
           | some rest' => some (nd :: rest')

/-- The function `ht_delete` of `hashtable.c`, acting on non-null table and key: on the
first prefix match, splice the node out and decrement `size` (a `size_t`, so
modulo `2^64`); report `E_NODE_NOT_FOUND` when no node matches. -/
def ht_delete (t : ht_t) (p_key : Key) : error_t × ht_t :=
  let index := bucketIdx t p_key
  match chainDelete p_key (getBucket t index) with
  | none => (.E_NODE_NOT_FOUND, t)
  | some chain' =>
      (.E_SUCCESS,
       { t with pp_items := t.pp_items.set index chain',
                size := (t.size + (M64 - 1)) % M64 })

/-- The chain walk of `ht_search` (lines 259–268): return the value of the
first node whose key equals the query key (`strcmp` full equality). -/
def chainSearch (p_key : Key) : List node_t → Option Val
  | [] => none
  | nd :: rest =>
      if nd.p_key = p_key then some nd.p_value else chainSearch p_key rest

/-- The function `ht_search` of `hashtable.c`, acting on a non-null table and key. -/
def ht_search (t : ht_t) (p_key : Key) : Option Val :=
  chainSearch p_key (getBucket t (bucketIdx t p_key))

/-! ## The C entry points, with nullable arguments

Each `_c` wrapper models the null-pointer checks of the corresponding C
function.  A `none` result models undefined behaviour (a null pointer that
the function dereferences); a `some` result is the defined error code /
value the function returns. -/

/-- Null handling of `ht_insert` (lines 117–131): `pp_ht` and `*pp_ht` are
checked; the key is *not* — `node_create` stores it without dereferencing,
but `hash_str` then calls `strlen(p_key)`, so a null key is undefined
behaviour (`none`).  The second component is the final content of the
caller's handle `*pp_ht` (when `pp_ht` itself is non-null). -/
def ht_insert_c (fuel : Nat) (pp_ht : Option (Option ht_t)) (p_key : Option Key)
    (p_value : Val) : Option (error_t × Option (Option ht_t)) :=
  match pp_ht with
  | none => some (.E_NULL_PTR, none)
  | some none => some (.E_NULL_PTR, some none)
  | some (some t) =>
    match p_key with
    | none => none
    | some k =>
      match ht_insert_fuel fuel t k p_value with
      | none => none
      | some t' => some (.E_SUCCESS, some (some t'))

/-- Null handling of `ht_delete` (lines 201–211): both the table and the key
are checked before any dereference. -/
def ht_delete_c (p_ht : Option ht_t) (p_key : Option Key) :
    Option (error_t × Option ht_t) :=
  match p_ht with
  | none => some (.E_NULL_PTR, none)
  | some t =>
    match p_key with
    | none => some (.E_NULL_PTR, some t)
    | some k =>
      let (e, t') := ht_delete t k
      some (e, some t')

/-- Null handling of `ht_search` (lines 250–253): a null table returns the
absent marker `NULL`; a null key is hashed (`strlen(NULL)`), i.e. undefined
behaviour (`none`). -/
def ht_search_c (p_ht : Option ht_t) (p_key : Option Key) :
    Option (Option Val) :=
  match p_ht with
  | none => some none
  | some t =>
    match p_key with
    | none => none
    | some k => some (ht_search t k)

/-- Null handling of `ht_destroy` (lines 78–82): a null table is reported as
`E_NULL_PTR`; otherwise all chains and the table are freed and `E_SUCCESS`
returned. -/
def ht_destroy_c (p_ht : Option ht_t) : error_t :=
  match p_ht with
  | none => .E_NULL_PTR
  | some _ => .E_SUCCESS

/-! ## Operation sequences -/

/-- One table operation, for stating claims about operation sequences. -/
inductive htop where
  | ins (k : Key) (v : Val)
  | del (k : Key)
  deriving DecidableEq, Repr

/-- Run one operation on a (non-null) table.  `ht_delete` never replaces the
table handle; `ht_insert` may (resize). -/
def runOp (fuel : Nat) (t : ht_t) : htop → Option ht_t
  | .ins k v => ht_insert_fuel fuel t k v
  | .del k => some (ht_delete t k).2

/-- Run a sequence of operations. -/
def runOps (fuel : Nat) (t : ht_t) (ops : List htop) : Option ht_t :=
  ops.foldlM (runOp fuel) t

/-! ## Well-formedness -/

/-- Structural well-formedness of a table: the bucket array has `capacity`
entries, the capacity is positive, and every node sits in the bucket its key
hashes to (mod the current capacity). -/
def wf (t : ht_t) : Prop :=
  t.pp_items.length = t.capacity ∧ 0 < t.capacity ∧
  ∀ i, i < t.pp_items.length →
    ∀ nd ∈ t.pp_items.getD i [], hash_str nd.p_key % t.capacity = i

instance (t : ht_t) : Decidable (wf t) := by
  unfold wf; infer_instance

/-- The keys currently stored in the table, in re-insertion order. -/
def tableKeys (t : ht_t) : List Key := (entriesOf t).map node_t.p_key

/-! ## The hash algorithm as the specification words it

A second hash definition, `murmurhash_spec`, written to follow the
specification's step-by-step description (§4.1 of the spec) rather than the C
control flow, for the refinement claim C3: first all 4-byte chunks are mixed
into a running hash by a fold, then the 0–3 trailing bytes are accumulated
(byte 2 shifted 16, byte 1 shifted 8, byte 0 unshifted) and mixed with the
multiply/rotate/multiply/XOR step, then the hash is XORed with the length and
avalanched. -/

/-- Split the input into its sequence of 4-byte chunk words and the 0–3
trailing bytes. -/
def specChunks : List Byte → List Nat × List Byte
  | b0 :: b1 :: b2 :: b3 :: rest =>
      let (ws, tl) := specChunks rest
      (leWord b0 b1 b2 b3 :: ws, tl)
  | l => ([], l)

/-- One chunk step of the spec: multiply by `C1`, rotate left 15, multiply by
`C2`, XOR into the hash, rotate the hash left 13, multiply by 5, add
`0xe6546b64`. -/
def specMixChunk (hash w : Nat) : Nat :=
  let k := mul32 w 0xcc9e2d51
  let k := rotl32 k 15
  let k := mul32 k 0x1b873593
  let hash := hash ^^^ k
  let hash := rotl32 hash 13
  (hash * 5 + 0xe6546b64) % M32

/-- The spec's tail accumulation: byte 2 shifted 16, byte 1 shifted 8, byte 0
unshifted — only the bytes present contribute. -/
def specTailAccum (tl : List Byte) : Nat :=
  (((tl.getD 2 0).val <<< 16) ^^^ ((tl.getD 1 0).val <<< 8)) ^^^ (tl.getD 0 0).val

/-- The spec's avalanche mix: xor-shift-16, multiply, xor-shift-13, multiply,
xor-shift-16. -/
def specAvalanche (h : Nat) : Nat :=
  let h := h ^^^ (h >>> 16)
  let h := mul32 h 0x85ebca6b
  let h := h ^^^ (h >>> 13)
  let h := mul32 h 0xc2b2ae35
  h ^^^ (h >>> 16)

/-- The hash algorithm as the specification describes it. -/
def murmurhash_spec (key : List Byte) (seed : Nat) : Nat :=
  let (ws, tl) := specChunks key
  let h := ws.foldl specMixChunk (seed % M32)
  let h :=
    if tl = [] then h
    else h ^^^ mul32 (rotl32 (mul32 (specTailAccum tl) 0xcc9e2d51) 15) 0x1b873593
  specAvalanche (h ^^^ key.length)

/-! ## Invariant A: capacity equals the ranked prime -/

/-- Invariant A of the spec: the capacity rank indexes `g_primes` and the
capacity is the ranked prime. -/
def capinv (t : ht_t) : Prop :=
  t.prime_index < g_primes.length ∧ t.capacity = g_primes.getD t.prime_index 0

/-! ## Concrete tables for the claim scenarios

One-byte keys are written as singleton byte lists; "a" is `[97]`, "b" is
`[98]`, "ab" is `[97, 98]`.  In the rank-0 (capacity 53) table the one-byte
keys "e" `[101]` and "f" `[102]` hash to the same bucket (21), as do "d"
`[100]` and "k" `[107]` (bucket 29). -/

/-- The table `ht_create(0)`: rank 0, capacity 53. -/
def table0 : ht_t := (ht_create 0).getD default

/-- Inserts of the `n` distinct one-byte keys `[1]`, …, `[n]`, value 0. -/
def fillOps (n : Nat) : List htop :=
  (List.range n).map (fun i => htop.ins [Fin.ofNat' 256 (i + 1)] 0)

/-- The rank-0 table filled with 84 distinct one-byte keys: 42 occupied
buckets, just below the 0.8 load factor. -/
def preResizeTable : ht_t := (runOps 5 table0 (fillOps 84)).getD default

/-- The table after inserting the 85th distinct key `[85]`, which lifts the
occupancy to 43 > 0.8 * 53 and triggers the resize to rank 1. -/
def postResizeTable : ht_t :=
  (ht_insert_fuel 2 preResizeTable [85] 0).getD default

/-- Insert "a" twice (values 1 then 2), then 85 distinct one-byte keys — the
fill forces a resize after the duplicate inserts of "a". -/
def dupOps : List htop := htop.ins [97] 1 :: htop.ins [97] 2 :: fillOps 85

/-- The table produced by `dupOps`. -/
def dupTable : ht_t := (runOps 5 table0 dupOps).getD default

/-- The spec §8 scenario: insert("a",1); insert("b",2); insert("a",3). -/
def scenarioTable : ht_t :=
  (runOps 5 table0 [htop.ins [97] 1, htop.ins [98] 2, htop.ins [97] 3]).getD
    default

/-- A table with the colliding keys "e" and "f" chained in one bucket. -/
def collideTable : ht_t :=
  (runOps 5 table0 [htop.ins [101] 10, htop.ins [102] 20]).getD default

/-- A table holding only the two-byte key "am" `[97, 109]`, which hashes to
the same rank-0 bucket (42) as its one-byte prefix "a" `[97]`. -/
def amTable : ht_t := (runOps 5 table0 [htop.ins [97, 109] 7]).getD default

/-- The C10 sequence: occupy bucket 21 with "e","f" and bucket 29 with
"d","k" (`size` = 2), then delete "e", "f" (`size` = 0) and "d" (`size`
wraps to `2^64 - 1` while "k" still occupies bucket 29). -/
def wrapOps : List htop :=
  [htop.ins [101] 1, htop.ins [102] 2, htop.ins [100] 3, htop.ins [107] 4,
   htop.del [101], htop.del [102], htop.del [100]]

/-- The table produced by `wrapOps`: empty but for "k", with `size`
wrapped to `2^64 - 1`. -/
def wrapTable : ht_t := (runOps 5 table0 wrapOps).getD default

/-- Re-inserting "d" into `wrapTable` hits the occupied bucket 29, keeps the
huge `size`, and spuriously resizes. -/
def wrapInsertTable : ht_t := (ht_insert_fuel 5 wrapTable [100] 5).getD default

/-! ## Basic lemmas about buckets and chains -/

theorem getBucket_set_self (t : ht_t) (i : Nat) (c : List node_t)
    (h : i < t.pp_items.length) :
    ({ t with pp_items := t.pp_items.set i c } : ht_t).pp_items.getD i [] = c := by
  simp [List.getD_eq_getElem?_getD, List.getElem?_set_self h]

theorem getBucket_set_ne (t : ht_t) (i j : Nat) (c : List node_t)
    (h : i ≠ j) :
    ({ t with pp_items := t.pp_items.set i c } : ht_t).pp_items.getD j [] =
      t.pp_items.getD j [] := by
  simp [List.getD_eq_getElem?_getD, List.getElem?_set_ne h]

theorem chainSearch_eq_find? (k : Key) (l : List node_t) :
    chainSearch k l = (l.find? (fun nd => nd.p_key == k)).map node_t.p_value := by
  induction l with
  | nil => rfl
  | cons nd rest ih =>
      by_cases h : nd.p_key = k
      · have hb : (nd.p_key == k) = true := by simp [h]
        simp [chainSearch, h, List.find?_cons, hb]
      · have hb : (nd.p_key == k) = false := by simp [h]
        simp [chainSearch, h, List.find?_cons, hb, ih]

/-- Lemma: `chainDelete` is "erase the first prefix match, `none` when there is
none". -/
theorem chainDelete_eq (k : Key) (l : List node_t) :
    chainDelete k l =
      if l.any (fun nd => k.isPrefixOf nd.p_key)
      then some (l.eraseP (fun nd => k.isPrefixOf nd.p_key))
      else none := by
  induction l with
  | nil => rfl
  | cons nd rest ih =>
      by_cases h : k.isPrefixOf nd.p_key
      · simp [chainDelete, h, List.eraseP_cons, List.any_cons]
      · rw [show chainDelete k (nd :: rest)
              = (match chainDelete k rest with
                 | none => none
                 | some rest' => some (nd :: rest')) by
            simp [chainDelete, h], ih]
        by_cases h2 : rest.any (fun nd => k.isPrefixOf nd.p_key)
        · rw [if_pos h2, if_pos (by simpa [List.any_cons, h] using h2)]
          simp [List.eraseP_cons, h]
        · rw [if_neg h2, if_neg (by simpa [List.any_cons, h] using h2)]

theorem chainDelete_isSome_iff (k : Key) (l : List node_t) :
    (chainDelete k l).isSome ↔ ∃ nd ∈ l, k.isPrefixOf nd.p_key := by
  rw [chainDelete_eq]
  by_cases h : l.any (fun nd => k.isPrefixOf nd.p_key) <;>
    simp_all [List.any_eq_true]

/-- Removing a chain node whose key `k` does not full-equality match leaves
`chainSearch k` unchanged.  The hypothesis `¬ k'.isPrefixOf k` rules out the
removed node having key exactly `k`. -/
theorem chainSearch_chainDelete (k k' : Key) (l l' : List node_t)
    (hpre : ¬ k'.isPrefixOf k)
    (hdel : chainDelete k' l = some l') :
    chainSearch k l' = chainSearch k l := by
  induction l generalizing l' with
  | nil => simp [chainDelete] at hdel
  | cons nd rest ih =>
      by_cases h : k'.isPrefixOf nd.p_key
      · simp only [chainDelete, h, if_pos] at hdel
        cases hdel
        have hne : nd.p_key ≠ k := by
          rintro rfl; exact hpre h
        simp [chainSearch, hne]
      · simp only [chainDelete, h, if_neg, Bool.false_eq_true, not_false_iff] at hdel
        cases hrec : chainDelete k' rest with
        | none => rw [hrec] at hdel; simp at hdel
        | some rest' =>
            rw [hrec] at hdel
            simp only [Option.some.injEq] at hdel
            cases hdel
            by_cases he : nd.p_key = k
            · simp [chainSearch, he]
            · simp [chainSearch, he, ih rest' hrec]

/-- Nodes of the chain produced by `chainDelete` were nodes of the input
chain. -/
theorem chainDelete_subset (k : Key) (l l' : List node_t)
    (hdel : chainDelete k l = some l') :
    ∀ nd ∈ l', nd ∈ l := by
  induction l generalizing l' with
  | nil => simp [chainDelete] at hdel
  | cons nd rest ih =>
      by_cases h : k.isPrefixOf nd.p_key
      · simp only [chainDelete, h, if_pos] at hdel
        cases hdel
        intro x hx
        exact List.mem_cons_of_mem _ hx
      · simp only [chainDelete, h, if_neg, Bool.false_eq_true, not_false_iff] at hdel
        cases hrec : chainDelete k rest with
        | none => rw [hrec] at hdel; simp at hdel
        | some rest' =>
            rw [hrec] at hdel
            simp only [Option.some.injEq] at hdel
            cases hdel
            intro x hx
            rcases List.mem_cons.1 hx with rfl | hx
            · exact List.mem_cons_self _ _
            · exact List.mem_cons_of_mem _ (ih rest' hrec x hx)

/-! ## Insert / search / delete interaction -/

theorem bucketIdx_insert_core (t : ht_t) (k k' : Key) (v : Val) :
    bucketIdx (ht_insert_core t k' v) k = bucketIdx t k := rfl

theorem capacity_insert_core (t : ht_t) (k : Key) (v : Val) :
    (ht_insert_core t k v).capacity = t.capacity := rfl

theorem prime_insert_core (t : ht_t) (k : Key) (v : Val) :
    (ht_insert_core t k v).prime_index = t.prime_index := rfl

theorem ht_create_eq (r : Nat) (hr : r < g_primes.length) :
    ht_create r = some { pp_items := List.replicate (g_primes.get ⟨r, hr⟩) [],
                         capacity := g_primes.get ⟨r, hr⟩, size := 0,
                         prime_index := r } := by
  simp [ht_create, hr]

theorem ht_create_bound (r : Nat) (t : ht_t) (h : ht_create r = some t) :
    r < g_primes.length := by
  by_cases hr : r < g_primes.length
  · exact hr
  · simp [ht_create, hr] at h

theorem wf_create (r : Nat) (t : ht_t) (h : ht_create r = some t) : wf t := by
  have hr := ht_create_bound r t h
  rw [ht_create_eq r hr] at h
  cases h
  refine ⟨List.length_replicate _ _, ?_, ?_⟩
  · show 0 < g_primes.get ⟨r, hr⟩
    have hall : ∀ x ∈ g_primes, 0 < x := by decide
    exact hall _ (List.get_mem g_primes r hr)
  · intro i hi nd hnd
    show hash_str nd.p_key % g_primes.get ⟨r, hr⟩ = i
    rw [show ({ pp_items := List.replicate (g_primes.get ⟨r, hr⟩) [],
                capacity := g_primes.get ⟨r, hr⟩, size := 0,
                prime_index := r } : ht_t).pp_items
          = List.replicate (g_primes.get ⟨r, hr⟩) [] from rfl,
      List.getD_eq_getElem?_getD, List.getElem?_replicate] at hnd
    split at hnd <;> simp at hnd

theorem create_fields (r : Nat) (t : ht_t) (h : ht_create r = some t) :
    t.capacity = g_primes.getD r 0 ∧ t.prime_index = r ∧ t.size = 0 ∧
    r < g_primes.length := by
  have hr := ht_create_bound r t h
  rw [ht_create_eq r hr] at h
  cases h
  refine ⟨?_, rfl, rfl, hr⟩
  show g_primes.get ⟨r, hr⟩ = g_primes.getD r 0
  rw [List.getD_eq_getElem?_getD, List.getElem?_eq_getElem hr]
  rfl

/-- After the non-resizing insert, searching the inserted key finds the new
value (the new node is the chain head and `ht_search` takes the first full
match). -/
theorem search_insert_core_self (t : ht_t) (k : Key) (v : Val) (hwf : wf t) :
    ht_search (ht_insert_core t k v) k = some v := by
  obtain ⟨hlen, hpos, _⟩ := hwf
  have hidx : bucketIdx t k < t.pp_items.length := by
    rw [hlen]; exact Nat.mod_lt _ hpos
  unfold ht_search ht_insert_core getBucket
  simp only [bucketIdx]
  rw [List.getD_eq_getElem?_getD, List.getElem?_set_self (by simpa using hidx)]
  simp [chainSearch]

/-- The non-resizing insert of a different key does not change the search
result for `k` (same bucket: the new head full-equality mismatches; other
bucket: untouched). -/
theorem search_insert_core_other (t : ht_t) (k k' : Key) (v : Val)
    (hne : k' ≠ k) :
    ht_search (ht_insert_core t k' v) k = ht_search t k := by
  unfold ht_search ht_insert_core getBucket
  simp only [bucketIdx]
  by_cases heq : hash_str k' % t.capacity = hash_str k % t.capacity
  · rw [heq]
    by_cases hlt : hash_str k % t.capacity < t.pp_items.length
    · rw [List.getD_eq_getElem?_getD, List.getElem?_set_self hlt]
      simp [chainSearch, hne, List.getD_eq_getElem?_getD]
    · rw [List.getD_eq_getElem?_getD, List.getD_eq_getElem?_getD,
        List.getElem?_set, if_pos rfl, if_neg hlt]
      simp [List.getElem?_eq_none (Nat.le_of_not_lt hlt)]
  · simp [List.getD_eq_getElem?_getD, List.getElem?_set_ne heq]

theorem wf_insert_core (t : ht_t) (k : Key) (v : Val) (hwf : wf t) :
    wf (ht_insert_core t k v) := by
  obtain ⟨hlen, hpos, hinv⟩ := hwf
  have hidx : bucketIdx t k < t.pp_items.length := by
    rw [hlen]; exact Nat.mod_lt _ hpos
  refine ⟨by simpa [ht_insert_core] using hlen, by simpa [ht_insert_core] using hpos, ?_⟩
  intro i hi nd hnd
  simp only [ht_insert_core] at hnd hi ⊢
  rw [List.getD_eq_getElem?_getD] at hnd
  by_cases heq : bucketIdx t k = i
  · subst heq
    rw [List.getElem?_set_self hidx] at hnd
    simp only [Option.getD_some] at hnd
    rcases List.mem_cons.1 hnd with rfl | hnd
    · rfl
    · exact hinv _ hidx nd hnd
  · rw [List.getElem?_set_ne heq] at hnd
    exact hinv i (by simpa using hi) nd (by rw [List.getD_eq_getElem?_getD]; exact hnd)

theorem ht_delete_of_none (t : ht_t) (k : Key)
    (hdel : chainDelete k (getBucket t (bucketIdx t k)) = none) :
    ht_delete t k = (.E_NODE_NOT_FOUND, t) := by
  simp [ht_delete, hdel]

theorem ht_delete_of_some (t : ht_t) (k : Key) (chain' : List node_t)
    (hdel : chainDelete k (getBucket t (bucketIdx t k)) = some chain') :
    ht_delete t k =
      (.E_SUCCESS,
       { t with pp_items := t.pp_items.set (bucketIdx t k) chain',
                size := (t.size + (M64 - 1)) % M64 }) := by
  simp [ht_delete, hdel]

theorem wf_delete (t : ht_t) (k : Key) (hwf : wf t) : wf (ht_delete t k).2 := by
  obtain ⟨hlen, hpos, hinv⟩ := hwf
  cases hdel : chainDelete k (getBucket t (bucketIdx t k)) with
  | none => rw [ht_delete_of_none t k hdel]; exact ⟨hlen, hpos, hinv⟩
  | some chain' =>
      rw [ht_delete_of_some t k chain' hdel]
      refine ⟨by simpa using hlen, by simpa using hpos, ?_⟩
      intro i hi nd hnd
      show hash_str nd.p_key % t.capacity = i
      rw [show ({ t with pp_items := t.pp_items.set (bucketIdx t k) chain',
                         size := (t.size + (M64 - 1)) % M64 } : ht_t).pp_items
            = t.pp_items.set (bucketIdx t k) chain' from rfl,
        List.getD_eq_getElem?_getD] at hnd
      by_cases heq : bucketIdx t k = i
      · subst heq
        have hidx : bucketIdx t k < t.pp_items.length := by
          rw [hlen]; exact Nat.mod_lt _ hpos
        rw [List.getElem?_set_self hidx] at hnd
        simp only [Option.getD_some] at hnd
        have : nd ∈ getBucket t (bucketIdx t k) :=
          chainDelete_subset _ _ _ hdel nd hnd
        exact hinv _ hidx nd this
      · rw [List.getElem?_set_ne heq] at hnd
        exact hinv i (by simpa using hi) nd
          (by rw [List.getD_eq_getElem?_getD]; exact hnd)

/-- Deleting with a key that is not a prefix of `k` leaves `ht_search · k`
unchanged (the spliced-out node, if any, cannot have key `k`). -/
theorem search_delete_other (t : ht_t) (k k' : Key)
    (hpre : ¬ k'.isPrefixOf k) :
    ht_search (ht_delete t k').2 k = ht_search t k := by
  cases hdel : chainDelete k' (getBucket t (bucketIdx t k')) with
  | none => rw [ht_delete_of_none t k' hdel]
  | some chain' =>
      rw [ht_delete_of_some t k' chain' hdel]
      unfold ht_search getBucket
      simp only [bucketIdx]
      show chainSearch k ((t.pp_items.set (hash_str k' % t.capacity) chain').getD
        (hash_str k % t.capacity) []) = _
      by_cases heq : hash_str k' % t.capacity = hash_str k % t.capacity
      · by_cases hlt : hash_str k % t.capacity < t.pp_items.length
        · rw [List.getD_eq_getElem?_getD, heq, List.getElem?_set_self hlt]
          simp only [Option.getD_some]
          rw [List.getD_eq_getElem?_getD]
          refine chainSearch_chainDelete k k' _ _ hpre ?_
          rw [← hdel]
          unfold getBucket bucketIdx
          rw [List.getD_eq_getElem?_getD, heq]
        · rw [List.getD_eq_getElem?_getD, List.getD_eq_getElem?_getD, heq,
            List.getElem?_set, if_pos rfl, if_neg hlt,
            List.getElem?_eq_none (Nat.le_of_not_lt hlt)]
      · rw [List.getD_eq_getElem?_getD, List.getD_eq_getElem?_getD,
          List.getElem?_set_ne heq]

theorem delete_fields (t : ht_t) (k : Key) :
    (ht_delete t k).2.capacity = t.capacity ∧
    (ht_delete t k).2.prime_index = t.prime_index := by
  cases hdel : chainDelete k (getBucket t (bucketIdx t k)) with
  | none => rw [ht_delete_of_none t k hdel]; exact ⟨rfl, rfl⟩
  | some chain' => rw [ht_delete_of_some t k chain' hdel]; exact ⟨rfl, rfl⟩

/-! ## Generic fold lemmas for the resize loop -/

/-- Invariant propagation through an `Option`-valued `foldlM`, tracking the
prefix of the list already consumed. -/
theorem foldlM_option_inv {α β : Type} (f : β → α → Option β)
    (Q : β → List α → Prop) (L : List α)
    (hstep : ∀ b done a rest b', L = done ++ a :: rest → Q b done →
      f b a = some b' → Q b' (done ++ [a])) :
    ∀ l done b b', L = done ++ l → Q b done → l.foldlM f b = some b' →
      Q b' L := by
  intro l
  induction l with
  | nil =>
      intro done b b' hL hQ hfold
      simp only [List.foldlM_nil] at hfold
      cases hfold
      rw [hL, List.append_nil]
      exact hQ
  | cons a rest ih =>
      intro done b b' hL hQ hfold
      cases hfa : f b a with
      | none =>
          rw [List.foldlM_cons, hfa] at hfold
          simp at hfold
      | some b1 =>
          rw [List.foldlM_cons, hfa] at hfold
          have hrest : rest.foldlM f b1 = some b' := hfold
          have h1 : Q b1 (done ++ [a]) := hstep b done a rest b1 hL hQ hfa
          exact ih (done ++ [a]) b1 b' (by simpa using hL) h1 hrest

/-- The nested bucket/chain fold of the resize loop equals the flat fold over
the flattened bucket array. -/
theorem foldlM_buckets_eq_flatten {β : Type} (f : β → node_t → Option β) :
    ∀ (ls : List (List node_t)) (b : β),
      ls.foldlM (fun acc chain => chain.foldlM f acc) b = ls.flatten.foldlM f b := by
  intro ls
  induction ls with
  | nil => intro b; rfl
  | cons chain rest ih =>
      intro b
      rw [List.flatten_cons, List.foldlM_append, List.foldlM_cons]
      cases hc : chain.foldlM f b with
      | none => simp
      | some b1 => simp [ih]

/-- A flat fold over a list whose first processed element fails returns
`none`. -/
theorem foldlM_none_of_head {β : Type} (f : β → node_t → Option β)
    (nd : node_t) (rest : List node_t) (b : β) (h : f b nd = none) :
    (nd :: rest).foldlM f b = none := by
  simp [List.foldlM_cons, h]

/-! ## Monotonicity of the capacity rank -/

theorem prime_mono (fuel : Nat) :
    ∀ (t : ht_t) (k : Key) (v : Val) (t' : ht_t),
      ht_insert_fuel fuel t k v = some t' → t.prime_index ≤ t'.prime_index := by
  induction fuel with
  | zero => intro t k v t' h; cases h
  | succ fuel ih =>
      intro t k v t' h
      rw [ht_insert_fuel] at h
      split at h
      · -- resize branch
        cases hcr : ht_create ((ht_insert_core t k v).prime_index + 1) with
        | none => rw [hcr, Option.none_bind] at h; cases h
        | some fresh =>
            rw [hcr, Option.some_bind] at h
            cases hfold : (ht_insert_core t k v).pp_items.foldlM
                (fun acc chain => chain.foldlM
                  (fun acc' nd => ht_insert_fuel fuel acc' nd.p_key nd.p_value) acc)
                fresh with
            | none => rw [hfold] at h; cases h
            | some newT =>
                rw [hfold] at h
                cases h
                have hfresh : fresh.prime_index = t.prime_index + 1 := by
                  have := create_fields _ _ hcr
                  simpa [prime_insert_core] using this.2.1
                rw [foldlM_buckets_eq_flatten] at hfold
                have hmono : t.prime_index + 1 ≤ t'.prime_index := by
                  refine foldlM_option_inv
                    (fun acc' nd => ht_insert_fuel fuel acc' nd.p_key nd.p_value)
                    (fun b _ => t.prime_index + 1 ≤ b.prime_index)
                    (ht_insert_core t k v).pp_items.flatten
                    ?_ _ [] fresh t' rfl (le_of_eq hfresh.symm) hfold
                  intro b _ a _ b' _ hQ hf
                  exact le_trans hQ (ih b a.p_key a.p_value b' hf)
                omega
      · cases h
        simp [prime_insert_core]

/-- An insert that did not raise the capacity rank took the non-resize branch:
the result is exactly the core (prepend) insert. -/
theorem insert_no_resize (fuel : Nat) (t : ht_t) (k : Key) (v : Val)
    (t' : ht_t) (h : ht_insert_fuel (fuel + 1) t k v = some t')
    (hp : t'.prime_index = t.prime_index) :
    t' = ht_insert_core t k v ∧ loadFactorExceeds (ht_insert_core t k v) = false := by
  rw [ht_insert_fuel] at h
  split at h
  case isTrue hlf =>
    exfalso
    cases hcr : ht_create ((ht_insert_core t k v).prime_index + 1) with
    | none => rw [hcr, Option.none_bind] at h; cases h
    | some fresh =>
        rw [hcr, Option.some_bind] at h
        cases hfold : (ht_insert_core t k v).pp_items.foldlM
            (fun acc chain => chain.foldlM
              (fun acc' nd => ht_insert_fuel fuel acc' nd.p_key nd.p_value) acc)
            fresh with
        | none => rw [hfold] at h; cases h
        | some newT =>
            rw [hfold] at h
            cases h
            have hfresh : fresh.prime_index = t.prime_index + 1 := by
              have := create_fields _ _ hcr
              simpa [prime_insert_core] using this.2.1
            rw [foldlM_buckets_eq_flatten] at hfold
            have hmono : fresh.prime_index ≤ t'.prime_index := by
              refine foldlM_option_inv
                (fun acc' nd => ht_insert_fuel fuel acc' nd.p_key nd.p_value)
                (fun b _ => fresh.prime_index ≤ b.prime_index)
                (ht_insert_core t k v).pp_items.flatten
                ?_ _ [] fresh t' rfl le_rfl hfold
              intro b _ a _ b' _ hQ hf
              exact le_trans hQ (prime_mono fuel b a.p_key a.p_value b' hf)
            omega
  case isFalse hlf =>
    cases h
    exact ⟨rfl, by simpa using hlf⟩

theorem runOp_prime_mono (fuel : Nat) (t t' : ht_t) (op : htop)
    (h : runOp fuel t op = some t') : t.prime_index ≤ t'.prime_index := by
  cases op with
  | ins k v => exact prime_mono fuel t k v t' h
  | del k =>
      cases h
      exact le_of_eq ((delete_fields t k).2).symm

theorem runOps_prime_mono (fuel : Nat) (ops : List htop) :
    ∀ (t t' : ht_t), runOps fuel t ops = some t' →
      t.prime_index ≤ t'.prime_index := by
  induction ops with
  | nil =>
      intro t t' h
      cases h
      exact le_rfl
  | cons op rest ih =>
      intro t t' h
      unfold runOps at h
      rw [List.foldlM_cons] at h
      cases hop : runOp fuel t op with
      | none => rw [hop] at h; cases h
      | some t1 =>
          rw [hop] at h
          have h2 : runOps fuel t1 rest = some t' := h
          exact le_trans (runOp_prime_mono fuel t t1 op hop) (ih t1 t' h2)

theorem runOps_cons (fuel : Nat) (t : ht_t) (op : htop) (ops : List htop) :
    runOps fuel t (op :: ops) =
      (runOp fuel t op).bind (fun t1 => runOps fuel t1 ops) := by
  cases hop : runOp fuel t op with
  | none =>
      unfold runOps
      rw [List.foldlM_cons, hop]
      rfl
  | some t1 =>
      unfold runOps
      rw [List.foldlM_cons, hop]
      rfl

/-- Search preservation along a run: as long as no operation re-inserts `k`,
no delete key is a prefix of `k`, and the capacity rank never moves (no
resize), `ht_search · k` keeps its value. -/
theorem search_preserved_run (fuel : Nat) (k : Key) (v : Val) :
    ∀ (post : List htop) (t t' : ht_t), wf t → ht_search t k = some v →
      runOps fuel t post = some t' → t'.prime_index = t.prime_index →
      (∀ v', htop.ins k v' ∉ post) →
      (∀ k', htop.del k' ∈ post → ¬ k'.isPrefixOf k) →
      ht_search t' k = some v := by
  intro post
  induction post with
  | nil =>
      intro t t' _ hsearch hrun _ _ _
      cases hrun
      exact hsearch
  | cons op rest ih =>
      intro t t' hwf hsearch hrun hp hins hdel
      rw [runOps_cons] at hrun
      cases hop : runOp fuel t op with
      | none => rw [hop, Option.none_bind] at hrun; cases hrun
      | some t1 =>
          rw [hop, Option.some_bind] at hrun
          have hmono1 : t.prime_index ≤ t1.prime_index :=
            runOp_prime_mono fuel t t1 op hop
          have hmono2 : t1.prime_index ≤ t'.prime_index :=
            runOps_prime_mono fuel rest t1 t' hrun
          have hp1 : t1.prime_index = t.prime_index := by omega
          have hp2 : t'.prime_index = t1.prime_index := by omega
          cases op with
          | ins k' v' =>
              have hk : k' ≠ k := by
                rintro rfl
                exact hins v' (List.mem_cons_self _ _)
              cases fuel with
              | zero => cases hop
              | succ f =>
                  obtain ⟨ht1, -⟩ :=
                    insert_no_resize f t k' v' t1 hop (by omega)
                  subst ht1
                  exact ih _ t' (wf_insert_core t k' v' hwf)
                    (by rw [search_insert_core_other t k k' v' hk]; exact hsearch)
                    hrun hp2
                    (fun v'' hmem => hins v'' (List.mem_cons_of_mem _ hmem))
                    (fun k'' hmem => hdel k'' (List.mem_cons_of_mem _ hmem))
          | del k' =>
              have hpre : ¬ k'.isPrefixOf k :=
                hdel k' (List.mem_cons_self _ _)
              have ht1 : t1 = (ht_delete t k').2 := by
                cases hop; rfl
              subst ht1
              exact ih _ t' (wf_delete t k' hwf)
                (by rw [search_delete_other t k k' hpre]; exact hsearch)
                hrun hp2
                (fun v'' hmem => hins v'' (List.mem_cons_of_mem _ hmem))
                (fun k'' hmem => hdel k'' (List.mem_cons_of_mem _ hmem))

theorem specChunks_cons4 (b0 b1 b2 b3 : Byte) (rest : List Byte) :
    specChunks (b0 :: b1 :: b2 :: b3 :: rest) =
      (leWord b0 b1 b2 b3 :: (specChunks rest).1, (specChunks rest).2) := rfl

theorem murmurLoop_spec :
    ∀ (n : Nat) (key : List Byte), n = key.length / 4 → ∀ hash : Nat,
      murmurLoop n hash key =
        ((specChunks key).1.foldl specMixChunk hash, (specChunks key).2) := by
  intro n
  induction n with
  | zero =>
      intro key hn hash
      rcases key with _ | ⟨b0, _ | ⟨b1, _ | ⟨b2, _ | ⟨b3, rest⟩⟩⟩⟩
      · rfl
      · rfl
      · rfl
      · rfl
      · exfalso
        simp only [List.length_cons] at hn
        omega
  | succ n ih =>
      intro key hn hash
      rcases key with _ | ⟨b0, _ | ⟨b1, _ | ⟨b2, _ | ⟨b3, rest⟩⟩⟩⟩
      · simp only [List.length_nil] at hn; omega
      · simp only [List.length_cons, List.length_nil] at hn; omega
      · simp only [List.length_cons, List.length_nil] at hn; omega
      · simp only [List.length_cons, List.length_nil] at hn; omega
      · have hn2 : n = rest.length / 4 := by
          simp only [List.length_cons] at hn
          omega
        rw [show murmurLoop (n + 1) hash (b0 :: b1 :: b2 :: b3 :: rest)
              = murmurLoop n (specMixChunk hash (leWord b0 b1 b2 b3)) rest from rfl,
          ih rest hn2, specChunks_cons4, List.foldl_cons]

theorem murmurBody_spec (key : List Byte) (hash : Nat) :
    murmurBody hash key =
      ((specChunks key).1.foldl specMixChunk hash, (specChunks key).2) :=
  murmurLoop_spec (key.length / 4) key rfl hash

theorem specChunks_tail_len : ∀ key : List Byte, (specChunks key).2.length ≤ 3 := by
  intro key
  have h : ∀ n, ∀ key : List Byte, key.length ≤ n → (specChunks key).2.length ≤ 3 := by
    intro n
    induction n with
    | zero =>
        intro key hkey
        rw [List.length_eq_zero.1 (Nat.le_zero.1 hkey)]
        decide
    | succ n ih =>
        intro key hkey
        rcases key with _ | ⟨b0, _ | ⟨b1, _ | ⟨b2, _ | ⟨b3, rest⟩⟩⟩⟩
        · decide
        · simp [specChunks]
        · simp [specChunks]
        · simp [specChunks]
        · rw [specChunks_cons4]
          exact ih rest (by simp only [List.length_cons] at hkey; omega)
  exact h key.length key le_rfl

theorem tailWord_eq_specTailAccum (tl : List Byte) (hlen : tl.length ≤ 3) :
    tailWord tl = specTailAccum tl := by
  rcases tl with _ | ⟨a, _ | ⟨b, _ | ⟨c, _ | ⟨d, rest⟩⟩⟩⟩
  · simp [tailWord, specTailAccum]
  · simp [tailWord, specTailAccum, List.getD]
  · simp [tailWord, specTailAccum, List.getD]
  · rfl
  · simp at hlen

/-- The C hash function computes exactly the algorithm the spec describes. -/
theorem murmurhash_eq_spec (key : List Byte) (seed : Nat) :
    murmurhash key seed = murmurhash_spec key seed := by
  have htl := specChunks_tail_len key
  rcases hsc : specChunks key with ⟨ws, tl⟩
  rw [hsc] at htl
  simp only at htl
  unfold murmurhash murmurhash_spec
  rw [murmurBody_spec key (seed % M32), hsc]
  simp only
  rcases tl with _ | ⟨a, _ | ⟨b, _ | ⟨c, _ | ⟨d, rest⟩⟩⟩⟩
  · simp [specAvalanche]
  · simp [specAvalanche, specTailAccum, tailWord, List.getD, Fin.val_zero,
      Nat.zero_shiftLeft, Nat.zero_xor]
  · simp [specAvalanche, specTailAccum, tailWord, List.getD, Fin.val_zero,
      Nat.zero_shiftLeft, Nat.zero_xor]
  · simp [specAvalanche, specTailAccum, tailWord, List.getD, Fin.val_zero,
      Nat.zero_shiftLeft, Nat.zero_xor]
  · simp at htl

/-! ## Entry bookkeeping for the resize proof -/

theorem flatten_set_cons {α : Type} :
    ∀ (l : List (List α)) (i : Nat) (x : α), i < l.length →
      ((l.set i (x :: l.getD i [])).flatten).Perm (x :: l.flatten) := by
  intro l
  induction l with
  | nil => intro i x h; simp at h
  | cons c cs ih =>
      intro i x h
      cases i with
      | zero =>
          simp only [List.getD_cons_zero, List.set_cons_zero, List.flatten_cons]
          exact List.Perm.refl _
      | succ j =>
          simp only [List.getD_cons_succ, List.set_cons_succ, List.flatten_cons]
          have hj : j < cs.length := by simpa using h
          exact (List.Perm.append_left c (ih j x hj)).trans List.perm_middle

/-- The non-resizing insert adds exactly one node to the entry list. -/
theorem entriesOf_insert_core (t : ht_t) (k : Key) (v : Val) (hwf : wf t) :
    (entriesOf (ht_insert_core t k v)).Perm (⟨k, v⟩ :: entriesOf t) := by
  obtain ⟨hlen, hpos, -⟩ := hwf
  have hidx : bucketIdx t k < t.pp_items.length := by
    rw [hlen]; exact Nat.mod_lt _ hpos
  exact flatten_set_cons t.pp_items (bucketIdx t k) ⟨k, v⟩ hidx

theorem entriesOf_create (r : Nat) (t : ht_t) (h : ht_create r = some t) :
    entriesOf t = [] := by
  have hr := ht_create_bound r t h
  rw [ht_create_eq r hr] at h
  cases h
  show (List.replicate (g_primes.get ⟨r, hr⟩) ([] : List node_t)).flatten = []
  generalize g_primes.get ⟨r, hr⟩ = n
  induction n with
  | zero => rfl
  | succ m ih => simp only [List.replicate_succ, List.flatten_cons, List.nil_append, ih]

/-- With fuel 1 a successful insert cannot have resized: on a well-formed
table the resize path would re-insert at least one node with fuel 0 and fail. -/
theorem insert_fuel_one (t : ht_t) (k : Key) (v : Val) (t' : ht_t)
    (hwf : wf t) (h : ht_insert_fuel 1 t k v = some t') :
    t' = ht_insert_core t k v ∧ loadFactorExceeds (ht_insert_core t k v) = false := by
  rw [show (1 : Nat) = 0 + 1 from rfl] at h
  rw [ht_insert_fuel] at h
  split at h
  case isTrue hlf =>
    exfalso
    cases hcr : ht_create ((ht_insert_core t k v).prime_index + 1) with
    | none => rw [hcr, Option.none_bind] at h; cases h
    | some fresh =>
        rw [hcr, Option.some_bind, foldlM_buckets_eq_flatten] at h
        have hmem : (⟨k, v⟩ : node_t) ∈ entriesOf (ht_insert_core t k v) :=
          (entriesOf_insert_core t k v hwf).mem_iff.2 (List.mem_cons_self _ _)
        have hne : entriesOf (ht_insert_core t k v) ≠ [] :=
          List.ne_nil_of_mem hmem
        obtain ⟨nd, rest, hcons⟩ := List.exists_cons_of_ne_nil hne
        rw [show (ht_insert_core t k v).pp_items.flatten
              = entriesOf (ht_insert_core t k v) from rfl, hcons] at h
        rw [foldlM_none_of_head _ nd rest fresh rfl] at h
        cases h
  case isFalse hlf =>
    cases h
    exact ⟨rfl, by simpa using hlf⟩

/-- An insert with fuel 2 that hits the resize trigger performs exactly one
resize: the result was produced by folding fuel-1 (hence non-resizing)
inserts of all entries into the fresh rank `prime_index + 1` table. -/
theorem insert_fuel_two_resize (t : ht_t) (k : Key) (v : Val) (t' : ht_t)
    (hlf : loadFactorExceeds (ht_insert_core t k v) = true)
    (h : ht_insert_fuel 2 t k v = some t') :
    ∃ fresh, ht_create (t.prime_index + 1) = some fresh ∧
      (entriesOf (ht_insert_core t k v)).foldlM
        (fun acc nd => ht_insert_fuel 1 acc nd.p_key nd.p_value) fresh = some t' := by
  rw [show (2 : Nat) = 1 + 1 from rfl] at h
  rw [ht_insert_fuel] at h
  rw [if_pos hlf] at h
  cases hcr : ht_create ((ht_insert_core t k v).prime_index + 1) with
  | none => rw [hcr, Option.none_bind] at h; cases h
  | some fresh =>
      rw [hcr, Option.some_bind, foldlM_buckets_eq_flatten] at h
      exact ⟨fresh, by rw [← hcr]; rfl, h⟩

theorem capinv_create (r : Nat) (t : ht_t) (h : ht_create r = some t) :
    capinv t := by
  obtain ⟨hcap, hpi, -, hr⟩ := create_fields r t h
  exact ⟨hpi ▸ hr, by rw [hpi, hcap]⟩

theorem capinv_insert (fuel : Nat) :
    ∀ (t : ht_t) (k : Key) (v : Val) (t' : ht_t), capinv t →
      ht_insert_fuel fuel t k v = some t' → capinv t' := by
  induction fuel with
  | zero => intro t k v t' _ h; cases h
  | succ fuel ih =>
      intro t k v t' hci h
      rw [ht_insert_fuel] at h
      split at h
      · cases hcr : ht_create ((ht_insert_core t k v).prime_index + 1) with
        | none => rw [hcr, Option.none_bind] at h; cases h
        | some fresh =>
            rw [hcr, Option.some_bind, foldlM_buckets_eq_flatten] at h
            refine foldlM_option_inv
              (fun acc nd => ht_insert_fuel fuel acc nd.p_key nd.p_value)
              (fun b _ => capinv b)
              (ht_insert_core t k v).pp_items.flatten
              ?_ _ [] fresh t' rfl (capinv_create _ _ hcr) h
            intro b _ a _ b' _ hQ hf
            exact ih b a.p_key a.p_value b' hQ hf
      · cases h
        exact hci

theorem capinv_delete (t : ht_t) (k : Key) (h : capinv t) :
    capinv (ht_delete t k).2 := by
  refine ⟨?_, ?_⟩
  · rw [(delete_fields t k).2]; exact h.1
  · rw [(delete_fields t k).1, (delete_fields t k).2]; exact h.2

/-! ## The rehash loop of a single resize -/

/-- Folding fuel-1 (hence non-resizing) inserts of a duplicate-free entry list
into an empty well-formed table at rank `R` accumulates exactly those entries,
each searchable at its stored value. -/
theorem rehash_fold (L : List node_t) (R : Nat)
    (hnodup : (L.map node_t.p_key).Nodup) (start t' : ht_t)
    (hwfs : wf start) (hps : start.prime_index = R)
    (hes : entriesOf start = [])
    (hfold : L.foldlM
      (fun acc nd => ht_insert_fuel 1 acc nd.p_key nd.p_value) start = some t') :
    wf t' ∧ t'.prime_index = R ∧ (entriesOf t').Perm L ∧
      (∀ nd ∈ L, ht_search t' nd.p_key = some nd.p_value) := by
  have hstep : ∀ (b : ht_t) (done : List node_t) (a : node_t)
      (rest : List node_t) (b' : ht_t), L = done ++ a :: rest →
      (wf b ∧ b.prime_index = R ∧ (entriesOf b).Perm done ∧
        (∀ nd ∈ done, ht_search b nd.p_key = some nd.p_value)) →
      ht_insert_fuel 1 b a.p_key a.p_value = some b' →
      (wf b' ∧ b'.prime_index = R ∧ (entriesOf b').Perm (done ++ [a]) ∧
        (∀ nd ∈ done ++ [a], ht_search b' nd.p_key = some nd.p_value)) := by
    intro b done a rest b' hL hQ hf
    obtain ⟨hwfb, hpb, hperm, hsearch⟩ := hQ
    obtain ⟨rfl, -⟩ := insert_fuel_one b a.p_key a.p_value b' hwfb hf
    have hkey_notin : a.p_key ∉ done.map node_t.p_key := by
      intro hmem
      have hnodup2 : ((done ++ a :: rest).map node_t.p_key).Nodup := by
        rw [← hL]; exact hnodup
      rw [List.map_append, List.map_cons] at hnodup2
      have hdisj := (List.nodup_append.1 hnodup2).2.2
      exact hdisj hmem (List.mem_cons_self _ _)
    refine ⟨wf_insert_core b a.p_key a.p_value hwfb, hpb, ?_, ?_⟩
    · exact ((entriesOf_insert_core b a.p_key a.p_value hwfb).trans
        (hperm.cons a)).trans (List.perm_append_singleton a done).symm
    · intro nd hnd
      rcases List.mem_append.1 hnd with hnd | hnd
      · have hne : nd.p_key ≠ a.p_key := by
          intro he
          exact hkey_notin (he ▸ List.mem_map_of_mem node_t.p_key hnd)
        rw [search_insert_core_other b nd.p_key a.p_key a.p_value
          (fun he => hne he.symm)]
        exact hsearch nd hnd
      · rcases List.mem_singleton.1 hnd with rfl
        exact search_insert_core_self b nd.p_key nd.p_value hwfb
  have hinit : wf start ∧ start.prime_index = R ∧ (entriesOf start).Perm [] ∧
      (∀ nd ∈ ([] : List node_t), ht_search start nd.p_key = some nd.p_value) :=
    ⟨hwfs, hps, by rw [hes], fun nd h => absurd h (List.not_mem_nil nd)⟩
  exact foldlM_option_inv _ _ L hstep L [] start t' rfl hinit hfold

/-- Claim C5: when an insert lifts `size / capacity` strictly above 0.8, the
table is replaced by a fresh one at rank + 1 into which every existing
(key, value) pair is re-inserted (the caller's handle — insert's return value
here — is swapped to it; the old table is destroyed); afterwards every
previously inserted key is still searchable with its original value.  Stated
for a well-formed table with pairwise-distinct keys and a fresh inserted key
(the spec's "N distinct keys" scenario), at fuel 2, i.e. for a single,
non-cascading resize. -/
theorem C5_resize_rank_and_preservation (t : ht_t) (k : Key) (v : Val) (t' : ht_t)
    (hwf : wf t) (hnd : (tableKeys t).Nodup) (hfresh : k ∉ tableKeys t)
    (hlf : loadFactorExceeds (ht_insert_core t k v) = true)
    (hins : ht_insert_fuel 2 t k v = some t') :
    t'.prime_index = t.prime_index + 1 ∧
    (∀ nd ∈ entriesOf t, ht_search t' nd.p_key = some nd.p_value) ∧
    ht_search t' k = some v ∧
    (entriesOf t').Perm (⟨k, v⟩ :: entriesOf t) := by
  obtain ⟨fresh, hcr, hfold⟩ := insert_fuel_two_resize t k v t' hlf hins
  have hpermL : (entriesOf (ht_insert_core t k v)).Perm (⟨k, v⟩ :: entriesOf t) :=
    entriesOf_insert_core t k v hwf
  have hnodupL : ((entriesOf (ht_insert_core t k v)).map node_t.p_key).Nodup := by
    refine (List.Perm.nodup_iff (hpermL.map node_t.p_key)).2 ?_
    rw [List.map_cons]
    exact List.nodup_cons.2 ⟨hfresh, hnd⟩
  have hfr := create_fields _ _ hcr
  obtain ⟨hwf2, hp2, hperm2, hsearch2⟩ :=
    rehash_fold (entriesOf (ht_insert_core t k v)) (t.prime_index + 1)
      hnodupL fresh t' (wf_create _ _ hcr) hfr.2.1
      (entriesOf_create _ _ hcr) hfold
  refine ⟨hp2, ?_, ?_, hperm2.trans hpermL⟩
  · intro nd hnd
    exact hsearch2 nd (hpermL.mem_iff.2 (List.mem_cons_of_mem _ hnd))
  · exact hsearch2 ⟨k, v⟩ (hpermL.mem_iff.2 (List.mem_cons_self _ _))

/-! ## The claims -/

/-- Claim C2: starting from `create(rank 0)`, the sequence insert("a",1);
insert("b",2); insert("a",3) yields search("a") = 3 and search("b") = 2;
delete("b") then succeeds, after which search("b") is absent and a second
delete("b") reports not-found. -/
theorem C2_concrete_scenario :
    ht_create 0 = some table0 ∧
    runOps 5 table0 [htop.ins [97] 1, htop.ins [98] 2, htop.ins [97] 3]
      = some scenarioTable ∧
    ht_search scenarioTable [97] = some 3 ∧
    ht_search scenarioTable [98] = some 2 ∧
    (ht_delete scenarioTable [98]).1 = error_t.E_SUCCESS ∧
    ht_search (ht_delete scenarioTable [98]).2 [98] = none ∧
    (ht_delete (ht_delete scenarioTable [98]).2 [98]).1
      = error_t.E_NODE_NOT_FOUND :=
  ⟨rfl, rfl, by decide, by decide, by decide, by decide, by decide⟩

/-- Claim C3: for every byte sequence and seed, the C hash function computes
exactly the algorithm the spec describes (chunk mixing with the stated
constants, most-significant-byte-first tail accumulation without the final
rotate-13/multiply-5/add, XOR with the length, avalanche), and table
operations hash keys with fixed seed 0 over the key's `strlen` bytes. -/
theorem C3_hash_matches_spec :
    (∀ (key : List Byte) (seed : Nat),
      murmurhash key seed = murmurhash_spec key seed) ∧
    (∀ k : Key, hash_str k = murmurhash k 0) :=
  ⟨murmurhash_eq_spec, fun _ => rfl⟩

/-- Claim C4: `ht_delete` succeeds exactly when some entry of the key's bucket
chain prefix-matches the deletion key over `strlen(key)` bytes (so it can hit
a strictly longer stored key), removing the first such entry; with no prefix
match it reports not-found and leaves the table unchanged; `ht_search`
instead returns the first *full-equality* match of the chain. -/
theorem C4_delete_prefix_search_equality (t : ht_t) (k : Key) :
    ((ht_delete t k).1 = error_t.E_SUCCESS ↔
      ∃ nd ∈ getBucket t (bucketIdx t k), k.isPrefixOf nd.p_key) ∧
    ((¬ ∃ nd ∈ getBucket t (bucketIdx t k), k.isPrefixOf nd.p_key) →
      ht_delete t k = (error_t.E_NODE_NOT_FOUND, t)) ∧
    ((∃ nd ∈ getBucket t (bucketIdx t k), k.isPrefixOf nd.p_key) →
      (ht_delete t k).2.pp_items =
        t.pp_items.set (bucketIdx t k)
          ((getBucket t (bucketIdx t k)).eraseP
            (fun nd => k.isPrefixOf nd.p_key))) ∧
    ht_search t k =
      ((getBucket t (bucketIdx t k)).find? (fun nd => nd.p_key == k)).map
        node_t.p_value := by
  have hcd := chainDelete_eq k (getBucket t (bucketIdx t k))
  by_cases hex : ∃ nd ∈ getBucket t (bucketIdx t k), k.isPrefixOf nd.p_key
  · have hany : (getBucket t (bucketIdx t k)).any
        (fun nd => k.isPrefixOf nd.p_key) = true :=
      List.any_eq_true.2 hex
    rw [hany, if_pos rfl] at hcd
    rw [ht_delete_of_some t k _ hcd]
    exact ⟨Iff.intro (fun _ => hex) (fun _ => rfl),
      fun hn => absurd hex hn, fun _ => rfl, chainSearch_eq_find? k _⟩
  · have hany : (getBucket t (bucketIdx t k)).any
        (fun nd => k.isPrefixOf nd.p_key) = false := by
      rw [← Bool.not_eq_true, List.any_eq_true]
      exact hex
    rw [hany] at hcd
    simp only [Bool.false_eq_true, if_false] at hcd
    rw [ht_delete_of_none t k hcd]
    exact ⟨Iff.intro (fun hc => error_t.noConfusion hc)
        (fun hc => absurd hc hex),
      fun _ => rfl, fun hc => absurd hc hex, chainSearch_eq_find? k _⟩

/-- Witness for C4 on a concrete table: the stored key "am" is strictly
longer than the deletion key "a" (and shares its bucket), yet delete("a")
succeeds, while search("a") (full equality) finds nothing. -/
theorem C4_delete_prefix_search_equality_witness :
    (ht_delete amTable [97]).1 = error_t.E_SUCCESS ∧
    ht_search amTable [97] = none ∧ ([97] : Key) ≠ [97, 109] := by
  refine ⟨(C4_delete_prefix_search_equality amTable [97]).1.2
    ⟨⟨[97, 109], 7⟩, by decide, by decide⟩, ?_, by decide⟩
  rw [(C4_delete_prefix_search_equality amTable [97]).2.2.2]
  decide

/-- Claim C7: every successful delete decrements the `size_t` field `size` by
exactly one (modulo `2^64`), unconditionally. -/
theorem C7_delete_decrements_size (t : ht_t) (k : Key)
    (h : (ht_delete t k).1 = error_t.E_SUCCESS) :
    (ht_delete t k).2.size = (t.size + (M64 - 1)) % M64 ∧
    (0 < t.size → t.size < M64 → (ht_delete t k).2.size = t.size - 1) := by
  cases hdel : chainDelete k (getBucket t (bucketIdx t k)) with
  | none => rw [ht_delete_of_none t k hdel] at h; cases h
  | some chain2 =>
      rw [ht_delete_of_some t k chain2 hdel]
      refine ⟨rfl, fun h1 h2 => ?_⟩
      show (t.size + (M64 - 1)) % M64 = t.size - 1
      unfold M64 at h2 ⊢
      omega

/-- Witness for C7 on a concrete table whose bucket chains two entries ("e"
and "f" collide): deleting "e" decrements `size` from 1 to 0 even though the
bucket remains occupied by "f". -/
theorem C7_delete_decrements_size_witness :
    (ht_delete collideTable [101]).1 = error_t.E_SUCCESS ∧
    collideTable.size = 1 ∧
    (ht_delete collideTable [101]).2.size = collideTable.size - 1 ∧
    getBucket (ht_delete collideTable [101]).2
      (bucketIdx collideTable [102]) ≠ [] := by
  have h : (ht_delete collideTable [101]).1 = error_t.E_SUCCESS := by decide
  exact ⟨h, by decide,
    (C7_delete_decrements_size collideTable [101] h).2 (by decide) (by decide),
    by decide⟩

/-- Counterexample to claim C8 as stated: `ht_insert` does *not* null-check its
key — with a valid table and a null key it reaches `hash_str(NULL)`, i.e.
`strlen` dereferences the null pointer (modelled as the undefined-behaviour
result `none`) instead of returning the `E_NULL_PTR` error. -/
theorem C8_counterexample : ht_insert_c 2 (some (some table0)) none 0 = none :=
  rfl

/-- Claim C8 (amended): a null table handle (and for insert a null
handle-to-handle) is detected by insert, delete and destroy and reported as
`E_NULL_PTR`; search returns the absent marker; delete also detects a null
key.  Insert does *not* check its key — a null key is dereferenced (the
counterexample above). -/
theorem C8_amended_null_checks :
    (∀ (fuel : Nat) (key : Option Key) (v : Val),
      ht_insert_c fuel none key v = some (error_t.E_NULL_PTR, none)) ∧
    (∀ (fuel : Nat) (key : Option Key) (v : Val),
      ht_insert_c fuel (some none) key v
        = some (error_t.E_NULL_PTR, some none)) ∧
    (∀ k : Option Key, ht_delete_c none k = some (error_t.E_NULL_PTR, none)) ∧
    (∀ t : ht_t, ht_delete_c (some t) none
      = some (error_t.E_NULL_PTR, some t)) ∧
    (∀ k : Option Key, ht_search_c none k = some none) ∧
    ht_destroy_c none = error_t.E_NULL_PTR :=
  ⟨fun _ _ _ => rfl, fun _ _ _ => rfl, fun _ => rfl, fun _ => rfl,
   fun _ => rfl, rfl⟩

/-- Claim C10: a concrete operation sequence (two colliding pairs of keys, then
three successful deletes) drives `size` below the occupied-bucket count and
wraps it modulo `2^64` to `2^64 - 1`; the next successful insert (into the
still-occupied bucket) then sees a load factor far above 0.8 and spuriously
resizes the table to rank 1. -/
theorem C10_size_wrap_spurious_resize :
    runOps 5 table0 wrapOps = some wrapTable ∧
    ((runOps 5 table0 (wrapOps.take 6)).getD default).size = 0 ∧
    getBucket ((runOps 5 table0 (wrapOps.take 6)).getD default)
      (bucketIdx table0 [107]) ≠ [] ∧
    wrapTable.size = M64 - 1 ∧
    getBucket wrapTable (bucketIdx wrapTable [107]) ≠ [] ∧
    loadFactorExceeds (ht_insert_core wrapTable [100] 5) = true ∧
    ht_insert_fuel 5 wrapTable [100] 5 = some wrapInsertTable ∧
    wrapTable.prime_index = 0 ∧
    wrapInsertTable.prime_index = 1 ∧
    ht_search wrapInsertTable [107] = some 4 :=
  ⟨rfl, by decide, by decide, by decide, by decide, by decide, rfl,
   by decide, by decide, by decide⟩

/-- Witness for C5: the concrete 85th distinct insert into the rank-0 table
triggers the resize; the rank moves to 1 and the previously inserted key
`[1]` is still searchable with its value. -/
theorem C5_resize_rank_and_preservation_witness :
    wf preResizeTable ∧ (tableKeys preResizeTable).Nodup ∧
    ([85] : Key) ∉ tableKeys preResizeTable ∧
    loadFactorExceeds (ht_insert_core preResizeTable [85] 0) = true ∧
    postResizeTable.prime_index = preResizeTable.prime_index + 1 ∧
    ht_search postResizeTable [85] = some 0 ∧
    ht_search postResizeTable [1] = some 0 := by
  have h1 : wf preResizeTable := by decide
  have h2 : (tableKeys preResizeTable).Nodup := by decide
  have h3 : ([85] : Key) ∉ tableKeys preResizeTable := by decide
  have h4 : loadFactorExceeds (ht_insert_core preResizeTable [85] 0) = true := by
    decide
  obtain ⟨hp, hall, hk, -⟩ :=
    C5_resize_rank_and_preservation preResizeTable [85] 0 postResizeTable
      h1 h2 h3 h4 rfl
  exact ⟨h1, h2, h3, h4, hp, hk, hall ⟨[1], 0⟩ (by decide)⟩

/-- Counterexample to claim C6 as stated: the 85th distinct insert finds its
target bucket empty, yet the resulting table's `size` is 56, not the claimed
`42 + 1` — the resize recomputes `size` as the new table's occupancy. -/
theorem C6_counterexample :
    getBucket preResizeTable (bucketIdx preResizeTable [85]) = [] ∧
    ht_insert_fuel 2 preResizeTable [85] 0 = some postResizeTable ∧
    preResizeTable.size = 42 ∧
    postResizeTable.size = 56 ∧
    postResizeTable.size ≠ (preResizeTable.size + 1) % M64 ∧
    postResizeTable.size ≠ preResizeTable.size + 1 :=
  ⟨by decide, rfl, by decide, by decide, by decide, by decide⟩

/-- Claim C6 (amended): for every successful insert *that does not trigger a
resize* (observable as an unchanged capacity rank), `size` is incremented
(modulo `2^64`) exactly when the target bucket was empty and left unchanged
when the bucket already held chained entries; an insert that resizes instead
recomputes `size` as the new table's bucket occupancy (the counterexample). -/
theorem C6_amended_size_increment (fuel : Nat) (t : ht_t) (k : Key) (v : Val)
    (t' : ht_t) (h : ht_insert_fuel fuel t k v = some t')
    (hp : t'.prime_index = t.prime_index) :
    (getBucket t (bucketIdx t k) = [] → t'.size = (t.size + 1) % M64) ∧
    (getBucket t (bucketIdx t k) ≠ [] → t'.size = t.size) := by
  cases fuel with
  | zero => cases h
  | succ f =>
      obtain ⟨rfl, -⟩ := insert_no_resize f t k v t' h hp
      constructor
      · intro hb
        show (if (getBucket t (bucketIdx t k)).isEmpty
              then (t.size + 1) % M64 else t.size) = (t.size + 1) % M64
        rw [if_pos (List.isEmpty_iff.2 hb)]
      · intro hb
        show (if (getBucket t (bucketIdx t k)).isEmpty
              then (t.size + 1) % M64 else t.size) = t.size
        rw [if_neg (fun hc => hb (List.isEmpty_iff.1 hc))]

/-- Witness for the amended C6: inserting "a" into the empty rank-0 table
increments `size`; a second insert of "a" (occupied bucket) leaves it
unchanged. -/
theorem C6_amended_size_increment_witness :
    getBucket table0 (bucketIdx table0 [97]) = [] ∧
    ((ht_insert_fuel 2 table0 [97] 1).getD default).size
      = (table0.size + 1) % M64 ∧
    getBucket scenarioTable (bucketIdx scenarioTable [97]) ≠ [] ∧
    ((ht_insert_fuel 2 scenarioTable [97] 9).getD default).size
      = scenarioTable.size := by
  have he : getBucket table0 (bucketIdx table0 [97]) = [] := by decide
  have hne : getBucket scenarioTable (bucketIdx scenarioTable [97]) ≠ [] := by
    decide
  exact ⟨he, (C6_amended_size_increment 2 table0 [97] 1 _ rfl rfl).1 he, hne,
    (C6_amended_size_increment 2 scenarioTable [97] 9 _ rfl rfl).2 hne⟩

/-- Counterexample to claim C1 as stated: a sequence that inserts "a" twice
(values 1 then 2, so the most recent insert carries 2), contains no delete at
all, and then triggers a resize — after which search("a") returns the *old*
value 1: the resize re-inserts each chain head first, so re-insertion
prepends the entries in reverse, and the oldest duplicate ends up shadowing
the newest. -/
theorem C1_counterexample :
    runOps 5 table0 dupOps = some dupTable ∧
    dupOps.all (fun op => match op with
      | htop.ins _ _ => true
      | htop.del _ => false) = true ∧
    dupOps.filterMap (fun op => match op with
      | htop.ins k0 v0 => if k0 = [97] then some v0 else none
      | htop.del _ => none) = [1, 2] ∧
    dupTable.prime_index = 1 ∧
    ht_search dupTable [97] = some 1 :=
  ⟨rfl, by decide, by decide, by decide, by decide⟩

/-- Claim C1 (amended): after an insert of (k, v), search(k) returns v as long
as the remaining operations insert no further entry for k, delete with no key
that prefix-matches k, and trigger no resize (observable as an unchanged
capacity rank): insert prepends at the chain head and search takes the first
full-equality match, so the most recent insert shadows older duplicates until
a resize reverses the chains. -/
theorem C1_amended_last_insert_wins (fuel : Nat) (t t' : ht_t) (k : Key)
    (v : Val) (post : List htop) (hwf : wf t)
    (hrun : runOps fuel t (htop.ins k v :: post) = some t')
    (hp : t'.prime_index = t.prime_index)
    (hnoins : ∀ v', htop.ins k v' ∉ post)
    (hnodel : ∀ k', htop.del k' ∈ post → ¬ k'.isPrefixOf k) :
    ht_search t' k = some v := by
  rw [runOps_cons] at hrun
  cases hop : runOp fuel t (htop.ins k v) with
  | none => rw [hop, Option.none_bind] at hrun; cases hrun
  | some t1 =>
      rw [hop, Option.some_bind] at hrun
      have hm1 := runOp_prime_mono fuel t t1 _ hop
      have hm2 := runOps_prime_mono fuel post t1 t' hrun
      cases fuel with
      | zero => cases hop
      | succ f =>
          have hpc : (ht_insert_core t k v).prime_index = t.prime_index := rfl
          obtain ⟨rfl, -⟩ := insert_no_resize f t k v t1 hop (by omega)
          exact search_preserved_run (f + 1) k v post _ t'
            (wf_insert_core t k v hwf)
            (search_insert_core_self t k v hwf)
            hrun (by omega) hnoins hnodel

/-- Witness for the amended C1: insert "a" then delete "b" (no prefix of
"a"), no resize; search("a") still returns 1. -/
theorem C1_amended_last_insert_wins_witness :
    wf table0 ∧
    ht_search ((runOps 5 table0 [htop.ins [97] 1, htop.del [98]]).getD default)
      [97] = some 1 := by
  have hwf : wf table0 := by decide
  refine ⟨hwf, C1_amended_last_insert_wins 5 table0 _ [97] 1 [htop.del [98]]
    hwf rfl rfl ?_ ?_⟩
  · intro v' hmem
    simp at hmem
  · intro k' hmem
    rcases List.mem_singleton.1 hmem with hmem2
    cases hmem2
    decide

/-- Claim C9: `create(r)` yields capacity `g_primes[r]` at rank `r` for every
in-range rank; consecutive ranks give strictly increasing capacities; every
operation preserves Invariant A (`capacity = primes[prime_index]`); and the
resize path of an insert builds the replacement table with
`ht_create(prime_index + 1)`, one rank up. -/
theorem C9_capacity_prime_invariant :
    (∀ r, r < g_primes.length →
      ∃ t, ht_create r = some t ∧ t.capacity = g_primes.getD r 0 ∧
        t.prime_index = r) ∧
    (∀ r, r + 1 < g_primes.length →
      g_primes.getD r 0 < g_primes.getD (r + 1) 0) ∧
    (∀ r t, ht_create r = some t → capinv t) ∧
    (∀ fuel t k v t', capinv t → ht_insert_fuel fuel t k v = some t' →
      capinv t') ∧
    (∀ t k, capinv t → capinv (ht_delete t k).2) ∧
    (∀ t k v t', loadFactorExceeds (ht_insert_core t k v) = true →
      ht_insert_fuel 2 t k v = some t' →
      ∃ fresh, ht_create (t.prime_index + 1) = some fresh ∧
        (entriesOf (ht_insert_core t k v)).foldlM
          (fun acc nd => ht_insert_fuel 1 acc nd.p_key nd.p_value) fresh
          = some t') := by
  refine ⟨?_, ?_, capinv_create, fun fuel t k v t' => capinv_insert fuel t k v t',
    capinv_delete, fun t k v t' hlf hins => insert_fuel_two_resize t k v t' hlf hins⟩
  · intro r hr
    cases hc : ht_create r with
    | none => rw [ht_create_eq r hr] at hc; cases hc
    | some t =>
        obtain ⟨h1, h2, -, -⟩ := create_fields r t hc
        exact ⟨t, rfl, h1, h2⟩
  · have hstep : ∀ r, r < 25 → g_primes.getD r 0 < g_primes.getD (r + 1) 0 := by
      decide
    intro r hr
    have hlen : g_primes.length = 26 := rfl
    exact hstep r (by omega)

/-- Witness for C9: rank 0 gives capacity 53; 53 < 97; the invariant holds
after a delete on the concrete rank-0 table. -/
theorem C9_capacity_prime_invariant_witness :
    (∃ t, ht_create 0 = some t ∧ t.capacity = g_primes.getD 0 0 ∧
      t.prime_index = 0) ∧
    g_primes.getD 0 0 < g_primes.getD 1 0 ∧
    capinv (ht_delete table0 [97]).2 := by
  refine ⟨C9_capacity_prime_invariant.1 0 (by decide),
    C9_capacity_prime_invariant.2.1 0 (by decide),
    C9_capacity_prime_invariant.2.2.2.2.1 table0 [97] ?_⟩
  exact C9_capacity_prime_invariant.2.2.1 0 table0 rfl

end CHashtable
